import Mathlib

/-!
Verification of the bank-cashier discrete-event simulation
(`src/case_study/app.py`).

The source program drives a SimPy environment: a generator process
(`setup`) spawns `CUSTOMERS` customer processes, waiting a freshly drawn
exponential inter-arrival delay after each spawn; each customer records
its arrival time, requests one of `CASHIERS` units of a FIFO resource,
on grant records `wait = now - arrive`, draws a uniform service
duration, appends it to the statistics and adds it to the shared busy
counter, holds the unit for that duration and releases it.

The embedding below replays exactly this event-driven execution.  The
pseudo-random draws are inputs: `delays` is the sequence of values
returned by `random.expovariate(1.0 / INTERVAL)` (one per generator
iteration) and `services` the sequence returned by
`random.uniform(*SERVICE_TIME)` (one per customer, drawn at grant; the
resource is FIFO, so grants happen in customer order and the i-th
uniform draw belongs to customer i).  Simulated time is `ℚ` (for the
source's floats).  The event queue is a list sorted by time, with
same-time events kept in scheduling order, mirroring SimPy's
`(time, priority, eid)` ordering; a customer's process start, resource
request and same-instant grant collapse into the single arrival event,
which preserves every quantity the simulation observes (times, FIFO
order, counts, statistics).  Fields `grants`, `releasedCount`,
`enq_log`, `deq_log` and `departures` are ghost observation logs: they
influence nothing and merely record what happened.
-/

namespace BankSim

/-- Simulated time; rationals stand in for the source's floats. -/
abbrev Time := ℚ

/-- Run parameters: `capacity` is `CASHIERS`; `delays` are the successive
draws of `random.expovariate(1.0 / INTERVAL)` made by `setup` (their count
is `CUSTOMERS`); `services` are the successive draws of
`random.uniform(*SERVICE_TIME)`, indexed by customer. -/
structure Params where
  capacity : ℕ
  delays : List Time
  services : List Time

/-- The three kinds of scheduled resumptions occurring in the program:
the generator's wake-up after its inter-arrival timeout, a customer
process starting (arriving and requesting the resource), and a
customer's service timeout elapsing (which releases the resource). -/
inductive EventKind where
  | genWake
  | custArrive (i : ℕ)
  | custDone (i : ℕ)
deriving DecidableEq

/-- A scheduled event: a resumption at a simulated time.  The queue keeps
same-time events in scheduling order, so no explicit sequence number is
needed. -/
structure Event where
  time : Time
  kind : EventKind
deriving DecidableEq

/-- Ghost record of one grant of a resource unit: which customer, and at
what simulated time the grant happened. -/
structure Grant where
  cust : ℕ
  time : Time
deriving DecidableEq

/-- The whole simulation state: clock, event queue, generator progress,
the resource (`count` = held units, `queue` = FIFO waiters, as in
`simpy.Resource`), the statistics lists of the source
(`wait_times`, `service_times`, `busy_time`), the recorded arrival times,
and ghost observation logs. -/
structure SimState where
  now : Time
  events : List Event
  genIdx : ℕ
  count : ℕ
  queue : List ℕ
  arrivals : List (ℕ × Time)
  wait_times : List Time
  service_times : List Time
  busy_time : Time
  grants : List Grant
  releasedCount : ℕ
  enq_log : List ℕ
  deq_log : List (ℕ × Time)
  departures : List Time

/-- Service duration drawn for customer `j` (`random.uniform(*SERVICE_TIME)`). -/
def svc (P : Params) (j : ℕ) : Time := P.services.getD j 0

/-- Insert an event into the queue, after all events with time `≤` its
own: this realises SimPy's deterministic `(time, sequence)` ordering —
later-scheduled events at the same instant run later. -/
def insertEvent (e : Event) : List Event → List Event
  | [] => [e]
  | h :: t => if e.time < h.time then e :: h :: t else h :: insertEvent e t

/-- First recorded arrival time for customer `i` (association-list lookup). -/
def findArr : List (ℕ × Time) → ℕ → Option Time
  | [], _ => none
  | p :: t, i => if p.1 = i then some p.2 else findArr t i

/-- Grant one unit to customer `j` at time `t` (its recorded arrival is
`arrive`): the body of `customer` after `yield req` — append
`wait = now - arrive`, draw the service duration, append it, add it to
`busy_time`, and schedule the service-end event. -/
def grantTo (P : Params) (t : Time) (j : ℕ) (arrive : Time) (s : SimState) : SimState :=
  { s with
    count := s.count + 1,
    wait_times := s.wait_times ++ [t - arrive],
    service_times := s.service_times ++ [svc P j],
    busy_time := s.busy_time + svc P j,
    events := insertEvent ⟨t + svc P j, .custDone j⟩ s.events,
    grants := s.grants ++ [⟨j, t⟩],
    departures := s.departures ++ [t + svc P j] }

/-- One scheduler step: pop the earliest event, advance the clock to its
time, and run the resumed process until its next suspension.  `none`
means the event queue is empty (`env.run()` returns). -/
def step (P : Params) (s : SimState) : Option SimState :=
  match s.events with
  | [] => none
  | e :: rest =>
    match e.kind with
    | .genWake =>
      if s.genIdx < P.delays.length then
        some { s with
                now := e.time,
                events := insertEvent ⟨e.time + P.delays.getD s.genIdx 0, .genWake⟩
                  (insertEvent ⟨e.time, .custArrive s.genIdx⟩ rest),
                genIdx := s.genIdx + 1 }
      else some { s with now := e.time, events := rest }
    | .custArrive i =>
      if s.count < P.capacity then
        some (grantTo P e.time i e.time
          { s with
              now := e.time,
              events := rest,
              arrivals := s.arrivals ++ [(i, e.time)] })
      else
        some { s with
                now := e.time,
                events := rest,
                arrivals := s.arrivals ++ [(i, e.time)],
                queue := s.queue ++ [i],
                enq_log := s.enq_log ++ [i] }
    | .custDone _ =>
      match s.queue with
      | [] =>
        some { s with
                now := e.time,
                events := rest,
                count := s.count - 1,
                releasedCount := s.releasedCount + 1 }
      | jh :: q2 =>
        some (grantTo P e.time jh ((findArr s.arrivals jh).getD 0)
          { s with
              now := e.time,
              events := rest,
              count := s.count - 1,
              releasedCount := s.releasedCount + 1,
              queue := q2,
              deq_log := s.deq_log ++ [(jh, e.time)] })

/-- Initial state of `run_simulation`: empty statistics, the `setup`
process scheduled at time 0. -/
def init : SimState :=
  { now := 0, events := [⟨0, .genWake⟩], genIdx := 0, count := 0, queue := [],
    arrivals := [], wait_times := [], service_times := [], busy_time := 0,
    grants := [], releasedCount := 0, enq_log := [], deq_log := [],
    departures := [] }

/-- State after `k` scheduler steps (the run stutters once the event
queue is empty). -/
def run (P : Params) : ℕ → SimState
  | 0 => init
  | k + 1 =>
    match step P (run P k) with
    | some s => s
    | none => run P k

/-- Exact number of events a run dispatches: `n + 1` generator wake-ups,
`n` arrivals and `n` service completions where `n` is the customer count. -/
def fuel (P : Params) : ℕ := 3 * P.delays.length + 1

/-- Final state of the run — `env.run()` has returned. -/
def final (P : Params) : SimState := run P (fuel P)

/-- Cashier utilization reported at the end of the run:
`(busy_time[0] / (total_time * CASHIERS)) * 100`. -/
def utilization (P : Params) : Time :=
  (final P).busy_time / ((final P).now * P.capacity) * 100

/-- Summary record produced by `run_simulation` (the printed numbers plus
the raw sequences; plotting is presentation only). -/
structure SimResult where
  wait_times : List Time
  service_times : List Time
  avg_wait : Time
  avg_service : Time
  total_time : Time
  utilization : Time
deriving DecidableEq

/-- The whole of `run_simulation`: seed the draws, run the environment to
idle, compute the summary statistics.  Note there is no validation and no
error path anywhere in this function. -/
def run_simulation (P : Params) : SimResult :=
  { wait_times := (final P).wait_times,
    service_times := (final P).service_times,
    avg_wait := (final P).wait_times.sum / ((final P).wait_times.length : Time),
    avg_service := (final P).service_times.sum / ((final P).service_times.length : Time),
    total_time := (final P).now,
    utilization := utilization P }

/-- Recorded arrival time of customer `i` in the source's execution: the i-th
customer is spawned before the i-th delay is awaited, so it arrives at the
sum of the first `i` draws. -/
def psum (P : Params) (i : ℕ) : Time := (P.delays.take i).sum

/-- Maximum of a list of times, 0 for the empty list. -/
def maxD (l : List Time) : Time := l.foldr max 0

/-- Boolean test for service-completion events. -/
def isDoneB (e : Event) : Bool :=
  match e.kind with
  | .custDone _ => true
  | _ => false

/-- Boolean test for generator wake-up events. -/
def isWakeB (e : Event) : Bool :=
  match e.kind with
  | .genWake => true
  | _ => false

/-- Customer index of an arrival event, if any. -/
def arrIdx (e : Event) : Option ℕ :=
  match e.kind with
  | .custArrive i => some i
  | _ => none

/-- Number of pending service-completion events. -/
def doneCount (s : SimState) : ℕ := (s.events.filter isDoneB).length

/-- Sum of the times of pending service-completion events. -/
def doneSum (s : SimState) : Time := ((s.events.filter isDoneB).map Event.time).sum

/-- Hypotheses the source guarantees about the pseudo-random draws:
`random.expovariate` returns nonnegative delays, `random.uniform` returns
nonnegative durations, and one service draw is available per customer. -/
abbrev ParamsOK (P : Params) : Prop :=
  (∀ x ∈ P.delays, 0 ≤ x) ∧ (∀ x ∈ P.services, 0 ≤ x) ∧
    P.delays.length ≤ P.services.length


/-- Modelled from the spec: the source program has no configuration record
and no validation code; this records the spec's `InvalidConfiguration`
criterion (its section 7), written down only to compare it against what
`run_simulation` actually does.  `count` is the total entity count,
`interval` the mean inter-arrival interval, and `service_min` /
`service_max` the uniform service-duration parameters. -/
structure Config where
  capacity : ℤ
  count : ℤ
  interval : Time
  service_min : Time
  service_max : Time

/-- Modelled from the spec: a configuration is valid when capacity, count
and interval are positive and the service-duration parameters satisfy
`0 < min ≤ max`; anything else is an `InvalidConfiguration`. -/
abbrev validConfig (c : Config) : Prop :=
  0 < c.capacity ∧ 0 < c.count ∧ 0 < c.interval ∧
    0 < c.service_min ∧ c.service_min ≤ c.service_max

/-- Reading of the arrival generator claimed by the spec (its section 4.4):
draw a delay, suspend for it, and only then spawn; under that reading
customer `i` would arrive at the sum of the first `i + 1` delays. -/
def specArrivalTime (P : Params) (i : ℕ) : Time := (P.delays.take (i + 1)).sum

/-- Master inductive invariant of the simulation, relating the resource
bookkeeping, the event queue, the statistics lists and the ghost logs.
`n := P.delays.length` is the customer count. -/
structure Inv (P : Params) (s : SimState) : Prop where
  sorted : List.Sorted (fun a b : Event => a.time ≤ b.time) s.events
  now_nonneg : 0 ≤ s.now
  time_ge : ∀ e ∈ s.events, s.now ≤ e.time
  gen_le : s.genIdx ≤ P.delays.length
  cnt_le : s.count ≤ P.capacity
  cnt_done : s.count = doneCount s
  queue_full : s.queue ≠ [] → s.count = P.capacity
  busy_bound : s.busy_time + (s.count : Time) * s.now ≤ (P.capacity : Time) * s.now + doneSum s
  busy_sum : s.busy_time = s.service_times.sum
  wake_time : ∀ e ∈ s.events, e.kind = EventKind.genWake → e.time = psum P s.genIdx
  wake_uniq : (s.events.filter isWakeB).length ≤ 1
  wake_ex : (∃ e ∈ s.events, isWakeB e = true) ∨
    (s.genIdx = P.delays.length ∧ P.delays.sum ≤ s.now)
  arr_ev : ∀ e ∈ s.events, ∀ i, e.kind = EventKind.custArrive i →
    e.time = psum P i ∧ i < s.genIdx ∧ findArr s.arrivals i = none
  arr_nodup : (s.events.filterMap arrIdx).Nodup
  arr_keys : ∀ p ∈ s.arrivals, p.2 = psum P p.1 ∧ p.1 < s.genIdx
  arr_len : s.arrivals.length + (s.events.filterMap arrIdx).length = s.genIdx
  dep_le : ∀ d ∈ s.departures, d ≤ s.now ∨ ∃ e ∈ s.events, isDoneB e = true ∧ e.time = d
  now_ub : s.now ≤ max P.delays.sum (maxD s.departures)
  time_ub : ∀ e ∈ s.events, e.time ≤ max P.delays.sum (maxD s.departures)
  queue_mem : ∀ j ∈ s.queue, j < P.delays.length ∧
    ∃ a, findArr s.arrivals j = some a ∧ a ≤ s.now
  waits : s.wait_times = s.grants.map (fun g => g.time - psum P g.cust)
  grants_arr : ∀ g ∈ s.grants, findArr s.arrivals g.cust = some (psum P g.cust) ∧
    g.cust < P.delays.length ∧ psum P g.cust ≤ g.time
  svcs : s.service_times = s.grants.map (fun g => svc P g.cust)
  cnt_rel : s.count + s.releasedCount = s.grants.length
  fifo : s.enq_log = s.deq_log.map Prod.fst ++ s.queue
  deq_sorted : List.Sorted (· ≤ ·) (s.deq_log.map Prod.snd)
  deq_now : ∀ p ∈ s.deq_log, p.2 ≤ s.now
  grants_len : s.grants.length + s.queue.length = s.arrivals.length
  deps_grants : s.departures = s.grants.map (fun g => g.time + svc P g.cust)

/-- Weight of an event for the termination measure: an arrival will later
cause one completion, so it counts twice. -/
def weight : EventKind → ℕ
  | .genWake => 1
  | .custArrive _ => 2
  | .custDone _ => 1

/-- Weighted size of an event queue. -/
def wsum (l : List Event) : ℕ := (l.map (fun e => weight e.kind)).sum

/-- Termination measure of the simulation: it decreases by exactly one at
every scheduler step. -/
def phi (P : Params) (s : SimState) : ℕ :=
  3 * (P.delays.length - s.genIdx) + wsum s.events + s.queue.length


end BankSim

namespace BankSim

theorem insertEvent_perm (e : Event) (l : List Event) :
    List.Perm (insertEvent e l) (e :: l) := by
  induction l with
  | nil => simp [insertEvent]
  | cons h t ih =>
    simp only [insertEvent]
    by_cases hc : e.time < h.time
    · simp [hc]
    · simp only [hc, if_false]
      exact (ih.cons h).trans (List.Perm.swap e h t)

theorem mem_insertEvent {x e : Event} {l : List Event} :
    x ∈ insertEvent e l ↔ x = e ∨ x ∈ l := by
  rw [(insertEvent_perm e l).mem_iff]
  simp

theorem sorted_insertEvent {l : List Event} (e : Event)
    (h : List.Sorted (fun a b : Event => a.time ≤ b.time) l) :
    List.Sorted (fun a b : Event => a.time ≤ b.time) (insertEvent e l) := by
  induction l with
  | nil => simp [insertEvent]
  | cons a t ih =>
    rw [List.sorted_cons] at h
    simp only [insertEvent]
    by_cases hc : e.time < a.time
    · simp only [hc, if_true]
      rw [List.sorted_cons]
      constructor
      · intro b hb
        rcases List.mem_cons.mp hb with hb | hb
        · exact le_of_lt (hb ▸ hc)
        · exact le_trans (le_of_lt hc) (h.1 b hb)
      · rw [List.sorted_cons]
        exact h
    · simp only [hc, if_false]
      rw [List.sorted_cons]
      constructor
      · intro b hb
        rcases mem_insertEvent.mp hb with hb | hb
        · exact hb ▸ le_of_not_lt hc
        · exact h.1 b hb
      · exact ih h.2

theorem findArr_some_mem {l : List (ℕ × Time)} {i : ℕ} {a : Time}
    (h : findArr l i = some a) : (i, a) ∈ l := by
  induction l with
  | nil => simp [findArr] at h
  | cons p t ih =>
    obtain ⟨x, y⟩ := p
    simp only [findArr] at h
    by_cases hc : x = i
    · simp only [hc, if_true, Option.some.injEq] at h
      subst hc
      subst h
      exact List.mem_cons_self _ _
    · simp only [hc, if_false] at h
      exact List.mem_cons_of_mem _ (ih h)

theorem findArr_eq_none {l : List (ℕ × Time)} {i : ℕ}
    (h : ∀ p ∈ l, p.1 ≠ i) : findArr l i = none := by
  induction l with
  | nil => rfl
  | cons p t ih =>
    simp only [findArr, h p (List.mem_cons_self p t), if_false]
    exact ih fun q hq => h q (List.mem_cons_of_mem p hq)

theorem findArr_append_some {l l2 : List (ℕ × Time)} {i : ℕ} {a : Time}
    (h : findArr l i = some a) : findArr (l ++ l2) i = some a := by
  induction l with
  | nil => simp [findArr] at h
  | cons p t ih =>
    simp only [findArr] at h ⊢
    by_cases hc : p.1 = i
    · simpa [hc] using h
    · simp only [hc, if_false] at h ⊢
      exact ih h

theorem findArr_append_none {l l2 : List (ℕ × Time)} {i : ℕ}
    (h : findArr l i = none) : findArr (l ++ l2) i = findArr l2 i := by
  induction l with
  | nil => rfl
  | cons p t ih =>
    simp only [findArr] at h ⊢
    by_cases hc : p.1 = i
    · simp [hc] at h
    · simp only [hc, if_false] at h ⊢
      exact ih h

theorem psum_zero (P : Params) : psum P 0 = 0 := rfl

theorem psum_succ {P : Params} {i : ℕ} (h : i < P.delays.length) :
    psum P (i + 1) = psum P i + P.delays.getD i 0 := by
  unfold psum
  rw [List.take_succ, List.sum_append, List.getElem?_eq_getElem h,
    List.getD_eq_getElem?_getD, List.getElem?_eq_getElem h]
  simp

theorem psum_nonneg {P : Params} (hd : ∀ x ∈ P.delays, 0 ≤ x) (i : ℕ) :
    0 ≤ psum P i :=
  List.sum_nonneg fun x hx => hd x (List.mem_of_mem_take hx)

theorem psum_le_sum {P : Params} (hd : ∀ x ∈ P.delays, 0 ≤ x) (i : ℕ) :
    psum P i ≤ P.delays.sum := by
  unfold psum
  conv_rhs => rw [← List.take_append_drop i P.delays]
  rw [List.sum_append]
  have : 0 ≤ (P.delays.drop i).sum :=
    List.sum_nonneg fun x hx => hd x (List.mem_of_mem_drop hx)
  linarith

theorem psum_length (P : Params) : psum P P.delays.length = P.delays.sum := by
  unfold psum
  rw [List.take_length]

theorem getD_mem {l : List Time} {i : ℕ} (h : i < l.length) : l.getD i 0 ∈ l := by
  rw [List.getD_eq_getElem?_getD, List.getElem?_eq_getElem h]
  exact List.getElem_mem h

theorem maxD_append (l : List Time) (x : Time) :
    maxD (l ++ [x]) = max (maxD l) x := by
  induction l with
  | nil => simp [maxD, max_comm]
  | cons a t ih =>
    simp only [maxD, List.cons_append, List.foldr_cons] at ih ⊢
    rw [ih, max_assoc]

theorem le_maxD {l : List Time} {d : Time} (h : d ∈ l) : d ≤ maxD l := by
  induction l with
  | nil => simp at h
  | cons a t ih =>
    simp only [maxD, List.foldr_cons]
    rcases List.mem_cons.mp h with h | h
    · exact h ▸ le_max_left _ _
    · exact le_trans (ih h) (le_max_right _ _)

theorem maxD_le {l : List Time} {b : Time} (hb : 0 ≤ b)
    (h : ∀ d ∈ l, d ≤ b) : maxD l ≤ b := by
  induction l with
  | nil => exact hb
  | cons a t ih =>
    simp only [maxD, List.foldr_cons]
    exact max_le (h a (List.mem_cons_self a t))
      (ih fun d hd => h d (List.mem_cons_of_mem a hd))

theorem map_congr_mem {α β : Type} {f g : α → β} {l : List α}
    (h : ∀ x ∈ l, f x = g x) : l.map f = l.map g := by
  induction l with
  | nil => rfl
  | cons a t ih =>
    simp only [List.map_cons]
    rw [h a (List.mem_cons_self a t), ih fun x hx => h x (List.mem_cons_of_mem a hx)]

end BankSim

namespace BankSim

theorem isWakeB_iff {x : Event} : isWakeB x = true ↔ x.kind = EventKind.genWake := by
  cases h : x.kind <;> simp [isWakeB, h]

theorem isDoneB_iff {x : Event} : isDoneB x = true ↔ ∃ j, x.kind = EventKind.custDone j := by
  cases h : x.kind <;> simp [isDoneB, h]

theorem arrIdx_eq_some {x : Event} {i : ℕ} : arrIdx x = some i ↔ x.kind = EventKind.custArrive i := by
  cases h : x.kind <;> simp [arrIdx, h]

theorem length_filter_insertEvent (p : Event → Bool) (e : Event) (l : List Event) :
    ((insertEvent e l).filter p).length = ((e :: l).filter p).length :=
  ((insertEvent_perm e l).filter p).length_eq

theorem sum_filter_insertEvent (e : Event) (l : List Event) :
    (((insertEvent e l).filter isDoneB).map Event.time).sum
      = (((e :: l).filter isDoneB).map Event.time).sum :=
  (((insertEvent_perm e l).filter isDoneB).map Event.time).sum_eq

theorem filterMap_insertEvent_perm (e : Event) (l : List Event) :
    List.Perm ((insertEvent e l).filterMap arrIdx) ((e :: l).filterMap arrIdx) :=
  (insertEvent_perm e l).filterMap arrIdx

/-- Time-advance arithmetic: the busy-time bound is preserved when the
clock moves forward, because at most `capacity` completions are pending. -/
theorem adv_bound {busy c C now t ds : ℚ} (h : busy + c * now ≤ C * now + ds)
    (hc : c ≤ C) (ht : now ≤ t) : busy + c * t ≤ C * t + ds := by nlinarith

theorem inv_init (P : Params) : Inv P init := by
  constructor <;> simp [init, doneCount, doneSum, psum, maxD, isWakeB, isDoneB,
    arrIdx, List.filter, List.filterMap]

end BankSim

namespace BankSim

theorem no_more_of_filter_le_one {e : Event} {rest : List Event} {p : Event → Bool}
    (hu : ((e :: rest).filter p).length ≤ 1) (he : p e = true) :
    ∀ x ∈ rest, p x = false := by
  intro x hx
  by_contra hb
  rw [Bool.not_eq_false] at hb
  have h1 : x ∈ rest.filter p := List.mem_filter.mpr ⟨hx, hb⟩
  have h2 : (rest.filter p).length = 0 := by
    rw [List.filter_cons_of_pos he, List.length_cons] at hu
    omega
  rw [List.length_eq_zero] at h2
  rw [h2] at h1
  exact absurd h1 (List.not_mem_nil x)

theorem inv_wake_pos {P : Params} (hP : ParamsOK P) {s : SimState} {t : Time}
    {rest : List Event}
    (hs : Inv P s) (hev : s.events = ⟨t, EventKind.genWake⟩ :: rest)
    (hlt : s.genIdx < P.delays.length) :
    Inv P { s with
            now := t,
            events := insertEvent ⟨t + P.delays.getD s.genIdx 0, EventKind.genWake⟩
              (insertEvent ⟨t, EventKind.custArrive s.genIdx⟩ rest),
            genIdx := s.genIdx + 1 } := by
  obtain ⟨hd, hsv, hln⟩ := hP
  have hmem : (⟨t, EventKind.genWake⟩ : Event) ∈ s.events := by
    rw [hev]; exact List.mem_cons_self _ _
  have hnow_t : s.now ≤ t := hs.time_ge _ hmem
  have ht_psum : t = psum P s.genIdx := hs.wake_time _ hmem rfl
  have hd0 : 0 ≤ P.delays.getD s.genIdx 0 := hd _ (getD_mem hlt)
  have hsorted0 := hs.sorted
  rw [hev, List.sorted_cons] at hsorted0
  have hsorted' := hsorted0.2
  have hrest_ge : ∀ x ∈ rest, t ≤ x.time := hsorted0.1
  have hnowake : ∀ x ∈ rest, isWakeB x = false := by
    have hu := hs.wake_uniq
    rw [hev] at hu
    exact no_more_of_filter_le_one hu rfl
  have hmemE : ∀ x : Event,
      x ∈ insertEvent ⟨t + P.delays.getD s.genIdx 0, EventKind.genWake⟩
        (insertEvent ⟨t, EventKind.custArrive s.genIdx⟩ rest) ↔
      x = ⟨t + P.delays.getD s.genIdx 0, EventKind.genWake⟩ ∨
        x = ⟨t, EventKind.custArrive s.genIdx⟩ ∨ x ∈ rest := by
    intro x
    rw [mem_insertEvent, mem_insertEvent]
  have hfm : s.events.filterMap arrIdx = rest.filterMap arrIdx := by
    rw [hev, List.filterMap_cons_none (by simp [arrIdx])]
  have hperm : List.Perm
      ((insertEvent ⟨t + P.delays.getD s.genIdx 0, EventKind.genWake⟩
        (insertEvent ⟨t, EventKind.custArrive s.genIdx⟩ rest)).filterMap arrIdx)
      (s.genIdx :: rest.filterMap arrIdx) := by
    refine (filterMap_insertEvent_perm _ _).trans ?_
    rw [List.filterMap_cons_none (by simp [arrIdx])]
    refine (filterMap_insertEvent_perm _ _).trans ?_
    rw [List.filterMap_cons_some (f := arrIdx)
      (a := (⟨t, EventKind.custArrive s.genIdx⟩ : Event)) (b := s.genIdx) rfl]
  refine { sorted := ?_, now_nonneg := ?_, time_ge := ?_, gen_le := ?_, cnt_le := ?_,
           cnt_done := ?_, queue_full := ?_, busy_bound := ?_, busy_sum := ?_,
           wake_time := ?_, wake_uniq := ?_, wake_ex := ?_, arr_ev := ?_,
           arr_nodup := ?_, arr_keys := ?_, arr_len := ?_, dep_le := ?_,
           now_ub := ?_, time_ub := ?_, queue_mem := ?_, waits := ?_,
           grants_arr := ?_, svcs := ?_, cnt_rel := ?_, fifo := ?_,
           deq_sorted := ?_, deq_now := ?_, grants_len := ?_, deps_grants := ?_ }
  · exact sorted_insertEvent _ (sorted_insertEvent _ hsorted')
  · exact le_trans hs.now_nonneg hnow_t
  · intro x hx
    rw [hmemE] at hx
    rcases hx with h | h | h
    · rw [h]
      exact le_add_of_nonneg_right hd0
    · simp [h]
    · exact hrest_ge x h
  · exact Nat.succ_le_of_lt hlt
  · exact hs.cnt_le
  · have h1 : doneCount { s with
        now := t,
        events := insertEvent ⟨t + P.delays.getD s.genIdx 0, EventKind.genWake⟩
          (insertEvent ⟨t, EventKind.custArrive s.genIdx⟩ rest),
        genIdx := s.genIdx + 1 } = (rest.filter isDoneB).length := by
      show ((insertEvent _ (insertEvent _ rest)).filter isDoneB).length = _
      rw [length_filter_insertEvent, List.filter_cons_of_neg (by simp [isDoneB]),
        length_filter_insertEvent, List.filter_cons_of_neg (by simp [isDoneB])]
    have h2 : doneCount s = (rest.filter isDoneB).length := by
      rw [doneCount, hev, List.filter_cons_of_neg (by simp [isDoneB])]
    rw [h1, ← h2]
    exact hs.cnt_done
  · intro hq
    exact hs.queue_full hq
  · have h1 : doneSum { s with
        now := t,
        events := insertEvent ⟨t + P.delays.getD s.genIdx 0, EventKind.genWake⟩
          (insertEvent ⟨t, EventKind.custArrive s.genIdx⟩ rest),
        genIdx := s.genIdx + 1 } = doneSum s := by
      show (((insertEvent _ (insertEvent _ rest)).filter isDoneB).map Event.time).sum = _
      rw [sum_filter_insertEvent, List.filter_cons_of_neg (by simp [isDoneB]),
        sum_filter_insertEvent, List.filter_cons_of_neg (by simp [isDoneB]),
        doneSum, hev, List.filter_cons_of_neg (by simp [isDoneB])]
    rw [h1]
    exact adv_bound hs.busy_bound (Nat.cast_le.mpr hs.cnt_le) hnow_t
  · exact hs.busy_sum
  · intro x hx hk
    rw [hmemE] at hx
    rcases hx with h | h | h
    · rw [h]
      show t + P.delays.getD s.genIdx 0 = psum P (s.genIdx + 1)
      rw [psum_succ hlt, ← ht_psum]
    · rw [h] at hk
      exact absurd hk (by simp)
    · exact absurd (isWakeB_iff.mpr hk) (by simp [hnowake x h])
  · show ((insertEvent _ (insertEvent _ rest)).filter isWakeB).length ≤ 1
    rw [length_filter_insertEvent, List.filter_cons_of_pos rfl, List.length_cons,
      length_filter_insertEvent, List.filter_cons_of_neg (by simp [isWakeB])]
    have h2 : rest.filter isWakeB = [] := by
      apply List.eq_nil_iff_forall_not_mem.mpr
      intro x hx
      obtain ⟨hx1, hx2⟩ := List.mem_filter.mp hx
      rw [hnowake x hx1] at hx2
      simp at hx2
    rw [h2]
    simp
  · exact Or.inl ⟨_, (hmemE _).mpr (Or.inl rfl), rfl⟩
  · intro x hx i hk
    rw [hmemE] at hx
    rcases hx with h | h | h
    · rw [h] at hk
      simp at hk
    · rw [h] at hk
      have hgi : s.genIdx = i := by simpa using hk
      rw [h]
      refine ⟨?_, ?_, ?_⟩
      · show t = psum P i
        rw [← hgi]
        exact ht_psum
      · rw [← hgi]
        exact Nat.lt_succ_self _
      · rw [← hgi]
        apply findArr_eq_none
        intro p hp
        exact Nat.ne_of_lt (hs.arr_keys p hp).2
    · have hx2 : x ∈ s.events := by
        rw [hev]
        exact List.mem_cons_of_mem _ h
      obtain ⟨h1, h2, h3⟩ := hs.arr_ev x hx2 i hk
      exact ⟨h1, Nat.lt_succ_of_lt h2, h3⟩
  · rw [hperm.nodup_iff, List.nodup_cons]
    constructor
    · intro hmem2
      obtain ⟨x, hx1, hx2⟩ := List.mem_filterMap.mp hmem2
      have hx3 : x ∈ s.events := by
        rw [hev]
        exact List.mem_cons_of_mem _ hx1
      have := (hs.arr_ev x hx3 _ (arrIdx_eq_some.mp hx2)).2.1
      omega
    · rw [← hfm]
      exact hs.arr_nodup
  · intro p hp
    exact ⟨(hs.arr_keys p hp).1, Nat.lt_succ_of_lt (hs.arr_keys p hp).2⟩
  · show s.arrivals.length + _ = s.genIdx + 1
    rw [hperm.length_eq, List.length_cons]
    have h2 := hs.arr_len
    rw [hfm] at h2
    omega
  · intro dd hd2
    rcases hs.dep_le dd hd2 with h | ⟨x, hx1, hxd, hxt⟩
    · exact Or.inl (le_trans h hnow_t)
    · right
      rw [hev] at hx1
      rcases List.mem_cons.mp hx1 with h | h
      · rw [h] at hxd
        simp [isDoneB] at hxd
      · exact ⟨x, (hmemE x).mpr (Or.inr (Or.inr h)), hxd, hxt⟩
  · show t ≤ _
    exact le_trans (le_of_eq ht_psum) (le_trans (psum_le_sum hd _) (le_max_left _ _))
  · intro x hx
    rw [hmemE] at hx
    rcases hx with h | h | h
    · rw [h]
      show t + P.delays.getD s.genIdx 0 ≤ _
      have he : t + P.delays.getD s.genIdx 0 = psum P (s.genIdx + 1) := by
        rw [psum_succ hlt, ← ht_psum]
      rw [he]
      exact le_trans (psum_le_sum hd _) (le_max_left _ _)
    · rw [h]
      show t ≤ _
      exact le_trans (le_of_eq ht_psum) (le_trans (psum_le_sum hd _) (le_max_left _ _))
    · exact hs.time_ub x (by rw [hev]; exact List.mem_cons_of_mem _ h)
  · intro j hj
    obtain ⟨h1, a, h2, h3⟩ := hs.queue_mem j hj
    exact ⟨h1, a, h2, le_trans h3 hnow_t⟩
  · exact hs.waits
  · exact hs.grants_arr
  · exact hs.svcs
  · exact hs.cnt_rel
  · exact hs.fifo
  · exact hs.deq_sorted
  · intro p hp
    exact le_trans (hs.deq_now p hp) hnow_t
  · exact hs.grants_len
  · exact hs.deps_grants

end BankSim

namespace BankSim

theorem inv_wake_neg {P : Params} (hP : ParamsOK P) {s : SimState} {t : Time}
    {rest : List Event}
    (hs : Inv P s) (hev : s.events = ⟨t, EventKind.genWake⟩ :: rest)
    (hge : ¬ s.genIdx < P.delays.length) :
    Inv P { s with now := t, events := rest } := by
  obtain ⟨hd, hsv, hln⟩ := hP
  have hmem : (⟨t, EventKind.genWake⟩ : Event) ∈ s.events := by
    rw [hev]; exact List.mem_cons_self _ _
  have hnow_t : s.now ≤ t := hs.time_ge _ hmem
  have hgn : s.genIdx = P.delays.length := Nat.le_antisymm hs.gen_le (Nat.le_of_not_lt hge)
  have ht_psum : t = psum P s.genIdx := hs.wake_time _ hmem rfl
  have ht_sum : t = P.delays.sum := by
    rw [ht_psum, hgn, psum_length]
  have hsorted0 := hs.sorted
  rw [hev, List.sorted_cons] at hsorted0
  have hnowake : ∀ x ∈ rest, isWakeB x = false := by
    have hu := hs.wake_uniq
    rw [hev] at hu
    exact no_more_of_filter_le_one hu rfl
  have hfm : s.events.filterMap arrIdx = rest.filterMap arrIdx := by
    rw [hev, List.filterMap_cons_none (by simp [arrIdx])]
  have hdc : doneCount s = (rest.filter isDoneB).length := by
    rw [doneCount, hev, List.filter_cons_of_neg (by simp [isDoneB])]
  have hds : doneSum s = ((rest.filter isDoneB).map Event.time).sum := by
    rw [doneSum, hev, List.filter_cons_of_neg (by simp [isDoneB])]
  refine { sorted := ?_, now_nonneg := ?_, time_ge := ?_, gen_le := ?_, cnt_le := ?_,
           cnt_done := ?_, queue_full := ?_, busy_bound := ?_, busy_sum := ?_,
           wake_time := ?_, wake_uniq := ?_, wake_ex := ?_, arr_ev := ?_,
           arr_nodup := ?_, arr_keys := ?_, arr_len := ?_, dep_le := ?_,
           now_ub := ?_, time_ub := ?_, queue_mem := ?_, waits := ?_,
           grants_arr := ?_, svcs := ?_, cnt_rel := ?_, fifo := ?_,
           deq_sorted := ?_, deq_now := ?_, grants_len := ?_, deps_grants := ?_ }
  · exact hsorted0.2
  · exact le_trans hs.now_nonneg hnow_t
  · exact hsorted0.1
  · exact hs.gen_le
  · exact hs.cnt_le
  · show s.count = (rest.filter isDoneB).length
    rw [← hdc]
    exact hs.cnt_done
  · exact hs.queue_full
  · show s.busy_time + (s.count : Time) * t ≤
      (P.capacity : Time) * t + ((rest.filter isDoneB).map Event.time).sum
    rw [← hds]
    exact adv_bound hs.busy_bound (Nat.cast_le.mpr hs.cnt_le) hnow_t
  · exact hs.busy_sum
  · intro x hx hk
    exact absurd (isWakeB_iff.mpr hk) (by simp [hnowake x hx])
  · show (rest.filter isWakeB).length ≤ 1
    have h2 : rest.filter isWakeB = [] := by
      apply List.eq_nil_iff_forall_not_mem.mpr
      intro x hx
      obtain ⟨hx1, hx2⟩ := List.mem_filter.mp hx
      rw [hnowake x hx1] at hx2
      simp at hx2
    rw [h2]
    simp
  · exact Or.inr ⟨hgn, le_of_eq ht_sum.symm⟩
  · intro x hx i hk
    exact hs.arr_ev x (by rw [hev]; exact List.mem_cons_of_mem _ hx) i hk
  · rw [← hfm]
    exact hs.arr_nodup
  · exact hs.arr_keys
  · show s.arrivals.length + (rest.filterMap arrIdx).length = s.genIdx
    rw [← hfm]
    exact hs.arr_len
  · intro dd hd2
    rcases hs.dep_le dd hd2 with h | ⟨x, hx1, hxd, hxt⟩
    · exact Or.inl (le_trans h hnow_t)
    · right
      rw [hev] at hx1
      rcases List.mem_cons.mp hx1 with h | h
      · rw [h] at hxd
        simp [isDoneB] at hxd
      · exact ⟨x, h, hxd, hxt⟩
  · show t ≤ _
    rw [ht_sum]
    exact le_max_left _ _
  · intro x hx
    exact hs.time_ub x (by rw [hev]; exact List.mem_cons_of_mem _ hx)
  · intro j hj
    obtain ⟨h1, a, h2, h3⟩ := hs.queue_mem j hj
    exact ⟨h1, a, h2, le_trans h3 hnow_t⟩
  · exact hs.waits
  · exact hs.grants_arr
  · exact hs.svcs
  · exact hs.cnt_rel
  · exact hs.fifo
  · exact hs.deq_sorted
  · intro p hp
    exact le_trans (hs.deq_now p hp) hnow_t
  · exact hs.grants_len
  · exact hs.deps_grants

end BankSim

namespace BankSim

theorem inv_arrive_grant {P : Params} (hP : ParamsOK P) {s : SimState} {t : Time}
    {i : ℕ} {rest : List Event}
    (hs : Inv P s) (hev : s.events = ⟨t, EventKind.custArrive i⟩ :: rest)
    (hcnt : s.count < P.capacity) :
    Inv P (grantTo P t i t
      { s with
          now := t,
          events := rest,
          arrivals := s.arrivals ++ [(i, t)] }) := by
  obtain ⟨hd, hsv, hln⟩ := hP
  have hmem : (⟨t, EventKind.custArrive i⟩ : Event) ∈ s.events := by
    rw [hev]; exact List.mem_cons_self _ _
  have hnow_t : s.now ≤ t := hs.time_ge _ hmem
  obtain ⟨ht, hig, hfa⟩ := hs.arr_ev _ hmem i rfl
  have hin : i < P.delays.length := lt_of_lt_of_le hig hs.gen_le
  have hw0 : 0 ≤ svc P i := hsv _ (getD_mem (lt_of_lt_of_le hin hln))
  have hsorted0 := hs.sorted
  rw [hev, List.sorted_cons] at hsorted0
  have hsorted' := hsorted0.2
  have hrest_ge : ∀ x ∈ rest, t ≤ x.time := hsorted0.1
  have hfai : findArr (s.arrivals ++ [(i, t)]) i = some t := by
    rw [findArr_append_none hfa]
    simp [findArr]
  have hnd := hs.arr_nodup
  rw [hev, List.filterMap_cons_some (f := arrIdx)
    (a := (⟨t, EventKind.custArrive i⟩ : Event)) (b := i) rfl, List.nodup_cons] at hnd
  have hdc0 : doneCount s = (rest.filter isDoneB).length := by
    rw [doneCount, hev, List.filter_cons_of_neg (by simp [isDoneB])]
  have hds0 : doneSum s = ((rest.filter isDoneB).map Event.time).sum := by
    rw [doneSum, hev, List.filter_cons_of_neg (by simp [isDoneB])]
  have hfmrest : s.events.filterMap arrIdx = i :: rest.filterMap arrIdx := by
    rw [hev, List.filterMap_cons_some (f := arrIdx)
      (a := (⟨t, EventKind.custArrive i⟩ : Event)) (b := i) rfl]
  simp only [grantTo]
  refine { sorted := ?_, now_nonneg := ?_, time_ge := ?_, gen_le := ?_, cnt_le := ?_,
           cnt_done := ?_, queue_full := ?_, busy_bound := ?_, busy_sum := ?_,
           wake_time := ?_, wake_uniq := ?_, wake_ex := ?_, arr_ev := ?_,
           arr_nodup := ?_, arr_keys := ?_, arr_len := ?_, dep_le := ?_,
           now_ub := ?_, time_ub := ?_, queue_mem := ?_, waits := ?_,
           grants_arr := ?_, svcs := ?_, cnt_rel := ?_, fifo := ?_,
           deq_sorted := ?_, deq_now := ?_, grants_len := ?_, deps_grants := ?_ }
  · exact sorted_insertEvent _ hsorted'
  · exact le_trans hs.now_nonneg hnow_t
  · intro x hx
    rcases mem_insertEvent.mp hx with h | h
    · rw [h]
      exact le_add_of_nonneg_right hw0
    · exact hrest_ge x h
  · exact hs.gen_le
  · exact Nat.succ_le_of_lt hcnt
  · show s.count + 1 = ((insertEvent ⟨t + svc P i, EventKind.custDone i⟩ rest).filter isDoneB).length
    rw [length_filter_insertEvent, List.filter_cons_of_pos rfl, List.length_cons]
    have hcd := hs.cnt_done
    rw [hdc0] at hcd
    omega
  · intro hq
    exact absurd (hs.queue_full hq) (Nat.ne_of_lt hcnt)
  · show s.busy_time + svc P i + ((s.count + 1 : ℕ) : Time) * t ≤ (P.capacity : Time) * t +
      doneSum { s with
        now := t,
        events := insertEvent ⟨t + svc P i, EventKind.custDone i⟩ rest,
        arrivals := s.arrivals ++ [(i, t)],
        count := s.count + 1,
        wait_times := s.wait_times ++ [t - t],
        service_times := s.service_times ++ [svc P i],
        busy_time := s.busy_time + svc P i,
        grants := s.grants ++ [⟨i, t⟩],
        departures := s.departures ++ [t + svc P i] }
    have hds1 : doneSum { s with
        now := t,
        events := insertEvent ⟨t + svc P i, EventKind.custDone i⟩ rest,
        arrivals := s.arrivals ++ [(i, t)],
        count := s.count + 1,
        wait_times := s.wait_times ++ [t - t],
        service_times := s.service_times ++ [svc P i],
        busy_time := s.busy_time + svc P i,
        grants := s.grants ++ [⟨i, t⟩],
        departures := s.departures ++ [t + svc P i] } =
        (t + svc P i) + ((rest.filter isDoneB).map Event.time).sum := by
      show (((insertEvent ⟨t + svc P i, EventKind.custDone i⟩ rest).filter isDoneB).map Event.time).sum = _
      rw [sum_filter_insertEvent, List.filter_cons_of_pos rfl, List.map_cons, List.sum_cons]
    rw [hds1]
    have base := adv_bound hs.busy_bound (Nat.cast_le.mpr hs.cnt_le) hnow_t
    rw [hds0] at base
    push_cast
    linarith
  · show s.busy_time + svc P i = (s.service_times ++ [svc P i]).sum
    rw [List.sum_append, hs.busy_sum]
    simp
  · intro x hx hk
    rcases mem_insertEvent.mp hx with h | h
    · rw [h] at hk
      simp at hk
    · exact hs.wake_time x (by rw [hev]; exact List.mem_cons_of_mem _ h) hk
  · show ((insertEvent ⟨t + svc P i, EventKind.custDone i⟩ rest).filter isWakeB).length ≤ 1
    rw [length_filter_insertEvent, List.filter_cons_of_neg (by simp [isWakeB])]
    have hu := hs.wake_uniq
    rw [hev, List.filter_cons_of_neg (by simp [isWakeB])] at hu
    exact hu
  · rcases hs.wake_ex with ⟨x, hx, hw⟩ | ⟨h1, h2⟩
    · rw [hev] at hx
      rcases List.mem_cons.mp hx with h | h
      · rw [h] at hw
        simp [isWakeB] at hw
      · exact Or.inl ⟨x, mem_insertEvent.mpr (Or.inr h), hw⟩
    · exact Or.inr ⟨h1, le_trans h2 hnow_t⟩
  · intro x hx i2 hk
    rcases mem_insertEvent.mp hx with h | h
    · rw [h] at hk
      simp at hk
    · obtain ⟨h1, h2, h3⟩ := hs.arr_ev x (by rw [hev]; exact List.mem_cons_of_mem _ h) i2 hk
      refine ⟨h1, h2, ?_⟩
      have hmemFM : i2 ∈ rest.filterMap arrIdx :=
        List.mem_filterMap.mpr ⟨x, h, arrIdx_eq_some.mpr hk⟩
      have hne : i ≠ i2 := fun hE => hnd.1 (hE ▸ hmemFM)
      rw [findArr_append_none h3]
      simp [findArr, hne]
  · rw [(filterMap_insertEvent_perm _ _).nodup_iff,
      List.filterMap_cons_none (by simp [arrIdx])]
    exact hnd.2
  · intro p hp
    rcases List.mem_append.mp hp with h | h
    · exact hs.arr_keys p h
    · rw [List.mem_singleton] at h
      rw [h]
      exact ⟨ht, hig⟩
  · show (s.arrivals ++ [(i, t)]).length +
      ((insertEvent ⟨t + svc P i, EventKind.custDone i⟩ rest).filterMap arrIdx).length = s.genIdx
    have hl1 : ((insertEvent ⟨t + svc P i, EventKind.custDone i⟩ rest).filterMap arrIdx).length
        = (rest.filterMap arrIdx).length := by
      rw [(filterMap_insertEvent_perm _ _).length_eq,
        List.filterMap_cons_none (by simp [arrIdx])]
    have hlen := hs.arr_len
    rw [hfmrest, List.length_cons] at hlen
    rw [List.length_append, hl1]
    simp only [List.length_singleton]
    omega
  · intro dd hd2
    rcases List.mem_append.mp hd2 with h | h
    · rcases hs.dep_le dd h with h2 | ⟨x, hx1, hxd, hxt⟩
      · exact Or.inl (le_trans h2 hnow_t)
      · right
        rw [hev] at hx1
        rcases List.mem_cons.mp hx1 with h3 | h3
        · rw [h3] at hxd
          simp [isDoneB] at hxd
        · exact ⟨x, mem_insertEvent.mpr (Or.inr h3), hxd, hxt⟩
    · rw [List.mem_singleton] at h
      exact Or.inr ⟨⟨t + svc P i, EventKind.custDone i⟩,
        mem_insertEvent.mpr (Or.inl rfl), rfl, h.symm⟩
  · show t ≤ _
    exact le_trans (le_of_eq ht) (le_trans (psum_le_sum hd _) (le_max_left _ _))
  · intro x hx
    rcases mem_insertEvent.mp hx with h | h
    · rw [h]
      show t + svc P i ≤ _
      refine le_trans ?_ (le_max_right _ _)
      rw [maxD_append]
      exact le_max_right _ _
    · refine le_trans (hs.time_ub x (by rw [hev]; exact List.mem_cons_of_mem _ h)) ?_
      refine max_le_max (le_refl _) ?_
      rw [maxD_append]
      exact le_max_left _ _
  · intro j hj
    obtain ⟨h1, a, h2, h3⟩ := hs.queue_mem j hj
    exact ⟨h1, a, findArr_append_some h2, le_trans h3 hnow_t⟩
  · show s.wait_times ++ [t - t] = (s.grants ++ [(⟨i, t⟩ : Grant)]).map _
    rw [List.map_append, ← hs.waits]
    have he2 : t - t = t - psum P i := by rw [← ht]
    rw [he2]
    rfl
  · intro g hg
    rcases List.mem_append.mp hg with h | h
    · obtain ⟨h1, h2, h3⟩ := hs.grants_arr g h
      exact ⟨findArr_append_some h1, h2, h3⟩
    · rw [List.mem_singleton] at h
      rw [h]
      refine ⟨?_, hin, le_of_eq ht.symm⟩
      rw [← ht]
      exact hfai
  · show s.service_times ++ [svc P i] = (s.grants ++ [(⟨i, t⟩ : Grant)]).map _
    rw [List.map_append, ← hs.svcs]
    rfl
  · show s.count + 1 + s.releasedCount = (s.grants ++ [(⟨i, t⟩ : Grant)]).length
    rw [List.length_append]
    have := hs.cnt_rel
    simp only [List.length_singleton]
    omega
  · exact hs.fifo
  · exact hs.deq_sorted
  · intro p hp
    exact le_trans (hs.deq_now p hp) hnow_t
  · show (s.grants ++ [(⟨i, t⟩ : Grant)]).length + s.queue.length = (s.arrivals ++ [(i, t)]).length
    rw [List.length_append, List.length_append]
    have := hs.grants_len
    simp only [List.length_singleton]
    omega
  · show s.departures ++ [t + svc P i] = (s.grants ++ [(⟨i, t⟩ : Grant)]).map _
    rw [List.map_append, ← hs.deps_grants]
    rfl

end BankSim

namespace BankSim

theorem inv_arrive_queue {P : Params} (hP : ParamsOK P) {s : SimState} {t : Time}
    {i : ℕ} {rest : List Event}
    (hs : Inv P s) (hev : s.events = ⟨t, EventKind.custArrive i⟩ :: rest)
    (hcnt : ¬ s.count < P.capacity) :
    Inv P { s with
            now := t,
            events := rest,
            arrivals := s.arrivals ++ [(i, t)],
            queue := s.queue ++ [i],
            enq_log := s.enq_log ++ [i] } := by
  obtain ⟨hd, hsv, hln⟩ := hP
  have hmem : (⟨t, EventKind.custArrive i⟩ : Event) ∈ s.events := by
    rw [hev]; exact List.mem_cons_self _ _
  have hnow_t : s.now ≤ t := hs.time_ge _ hmem
  obtain ⟨ht, hig, hfa⟩ := hs.arr_ev _ hmem i rfl
  have hin : i < P.delays.length := lt_of_lt_of_le hig hs.gen_le
  have hceq : s.count = P.capacity := Nat.le_antisymm hs.cnt_le (Nat.le_of_not_lt hcnt)
  have hsorted0 := hs.sorted
  rw [hev, List.sorted_cons] at hsorted0
  have hfai : findArr (s.arrivals ++ [(i, t)]) i = some t := by
    rw [findArr_append_none hfa]
    simp [findArr]
  have hnd := hs.arr_nodup
  rw [hev, List.filterMap_cons_some (f := arrIdx)
    (a := (⟨t, EventKind.custArrive i⟩ : Event)) (b := i) rfl, List.nodup_cons] at hnd
  have hdc0 : doneCount s = (rest.filter isDoneB).length := by
    rw [doneCount, hev, List.filter_cons_of_neg (by simp [isDoneB])]
  have hds0 : doneSum s = ((rest.filter isDoneB).map Event.time).sum := by
    rw [doneSum, hev, List.filter_cons_of_neg (by simp [isDoneB])]
  have hfmrest : s.events.filterMap arrIdx = i :: rest.filterMap arrIdx := by
    rw [hev, List.filterMap_cons_some (f := arrIdx)
      (a := (⟨t, EventKind.custArrive i⟩ : Event)) (b := i) rfl]
  refine { sorted := ?_, now_nonneg := ?_, time_ge := ?_, gen_le := ?_, cnt_le := ?_,
           cnt_done := ?_, queue_full := ?_, busy_bound := ?_, busy_sum := ?_,
           wake_time := ?_, wake_uniq := ?_, wake_ex := ?_, arr_ev := ?_,
           arr_nodup := ?_, arr_keys := ?_, arr_len := ?_, dep_le := ?_,
           now_ub := ?_, time_ub := ?_, queue_mem := ?_, waits := ?_,
           grants_arr := ?_, svcs := ?_, cnt_rel := ?_, fifo := ?_,
           deq_sorted := ?_, deq_now := ?_, grants_len := ?_, deps_grants := ?_ }
  · exact hsorted0.2
  · exact le_trans hs.now_nonneg hnow_t
  · exact hsorted0.1
  · exact hs.gen_le
  · exact hs.cnt_le
  · show s.count = (rest.filter isDoneB).length
    rw [← hdc0]
    exact hs.cnt_done
  · intro _
    exact hceq
  · show s.busy_time + (s.count : Time) * t ≤
      (P.capacity : Time) * t + ((rest.filter isDoneB).map Event.time).sum
    rw [← hds0]
    exact adv_bound hs.busy_bound (Nat.cast_le.mpr hs.cnt_le) hnow_t
  · exact hs.busy_sum
  · intro x hx hk
    exact hs.wake_time x (by rw [hev]; exact List.mem_cons_of_mem _ hx) hk
  · show (rest.filter isWakeB).length ≤ 1
    have hu := hs.wake_uniq
    rw [hev, List.filter_cons_of_neg (by simp [isWakeB])] at hu
    exact hu
  · rcases hs.wake_ex with ⟨x, hx, hw⟩ | ⟨h1, h2⟩
    · rw [hev] at hx
      rcases List.mem_cons.mp hx with h | h
      · rw [h] at hw
        simp [isWakeB] at hw
      · exact Or.inl ⟨x, h, hw⟩
    · exact Or.inr ⟨h1, le_trans h2 hnow_t⟩
  · intro x hx i2 hk
    obtain ⟨h1, h2, h3⟩ := hs.arr_ev x (by rw [hev]; exact List.mem_cons_of_mem _ hx) i2 hk
    refine ⟨h1, h2, ?_⟩
    have hmemFM : i2 ∈ rest.filterMap arrIdx :=
      List.mem_filterMap.mpr ⟨x, hx, arrIdx_eq_some.mpr hk⟩
    have hne : i ≠ i2 := fun hE => hnd.1 (hE ▸ hmemFM)
    rw [findArr_append_none h3]
    simp [findArr, hne]
  · exact hnd.2
  · intro p hp
    rcases List.mem_append.mp hp with h | h
    · exact hs.arr_keys p h
    · rw [List.mem_singleton] at h
      rw [h]
      exact ⟨ht, hig⟩
  · show (s.arrivals ++ [(i, t)]).length + (rest.filterMap arrIdx).length = s.genIdx
    have hlen := hs.arr_len
    rw [hfmrest, List.length_cons] at hlen
    rw [List.length_append]
    simp only [List.length_singleton]
    omega
  · intro dd hd2
    rcases hs.dep_le dd hd2 with h2 | ⟨x, hx1, hxd, hxt⟩
    · exact Or.inl (le_trans h2 hnow_t)
    · right
      rw [hev] at hx1
      rcases List.mem_cons.mp hx1 with h3 | h3
      · rw [h3] at hxd
        simp [isDoneB] at hxd
      · exact ⟨x, h3, hxd, hxt⟩
  · show t ≤ _
    exact le_trans (le_of_eq ht) (le_trans (psum_le_sum hd _) (le_max_left _ _))
  · intro x hx
    exact hs.time_ub x (by rw [hev]; exact List.mem_cons_of_mem _ hx)
  · intro j hj
    rcases List.mem_append.mp hj with h | h
    · obtain ⟨h1, a, h2, h3⟩ := hs.queue_mem j h
      exact ⟨h1, a, findArr_append_some h2, le_trans h3 hnow_t⟩
    · rw [List.mem_singleton] at h
      rw [h]
      exact ⟨hin, t, hfai, le_refl t⟩
  · exact hs.waits
  · intro g hg
    obtain ⟨h1, h2, h3⟩ := hs.grants_arr g hg
    exact ⟨findArr_append_some h1, h2, h3⟩
  · exact hs.svcs
  · exact hs.cnt_rel
  · show s.enq_log ++ [i] = s.deq_log.map Prod.fst ++ (s.queue ++ [i])
    rw [hs.fifo, List.append_assoc]
  · exact hs.deq_sorted
  · intro p hp
    exact le_trans (hs.deq_now p hp) hnow_t
  · show s.grants.length + (s.queue ++ [i]).length = (s.arrivals ++ [(i, t)]).length
    rw [List.length_append, List.length_append]
    have := hs.grants_len
    simp only [List.length_singleton]
    omega
  · exact hs.deps_grants

end BankSim

namespace BankSim

theorem inv_done_empty {P : Params} (hP : ParamsOK P) {s : SimState} {t : Time}
    {j : ℕ} {rest : List Event}
    (hs : Inv P s) (hev : s.events = ⟨t, EventKind.custDone j⟩ :: rest)
    (hq : s.queue = []) :
    Inv P { s with
            now := t,
            events := rest,
            count := s.count - 1,
            releasedCount := s.releasedCount + 1 } := by
  obtain ⟨hd, hsv, hln⟩ := hP
  have hmem : (⟨t, EventKind.custDone j⟩ : Event) ∈ s.events := by
    rw [hev]; exact List.mem_cons_self _ _
  have hnow_t : s.now ≤ t := hs.time_ge _ hmem
  have hsorted0 := hs.sorted
  rw [hev, List.sorted_cons] at hsorted0
  have hdcc : doneCount s = (rest.filter isDoneB).length + 1 := by
    rw [doneCount, hev, List.filter_cons_of_pos rfl, List.length_cons]
  have hdss : doneSum s = t + ((rest.filter isDoneB).map Event.time).sum := by
    rw [doneSum, hev, List.filter_cons_of_pos rfl, List.map_cons, List.sum_cons]
  have hc1 : 1 ≤ s.count := by
    rw [hs.cnt_done, hdcc]
    omega
  have hfm : s.events.filterMap arrIdx = rest.filterMap arrIdx := by
    rw [hev, List.filterMap_cons_none (by simp [arrIdx])]
  refine { sorted := ?_, now_nonneg := ?_, time_ge := ?_, gen_le := ?_, cnt_le := ?_,
           cnt_done := ?_, queue_full := ?_, busy_bound := ?_, busy_sum := ?_,
           wake_time := ?_, wake_uniq := ?_, wake_ex := ?_, arr_ev := ?_,
           arr_nodup := ?_, arr_keys := ?_, arr_len := ?_, dep_le := ?_,
           now_ub := ?_, time_ub := ?_, queue_mem := ?_, waits := ?_,
           grants_arr := ?_, svcs := ?_, cnt_rel := ?_, fifo := ?_,
           deq_sorted := ?_, deq_now := ?_, grants_len := ?_, deps_grants := ?_ }
  · exact hsorted0.2
  · exact le_trans hs.now_nonneg hnow_t
  · exact hsorted0.1
  · exact hs.gen_le
  · exact le_trans (Nat.sub_le _ _) hs.cnt_le
  · show s.count - 1 = (rest.filter isDoneB).length
    have := hs.cnt_done
    rw [hdcc] at this
    omega
  · intro hq2
    exact absurd hq hq2
  · show s.busy_time + ((s.count - 1 : ℕ) : Time) * t ≤
      (P.capacity : Time) * t + ((rest.filter isDoneB).map Event.time).sum
    have base := adv_bound hs.busy_bound (Nat.cast_le.mpr hs.cnt_le) hnow_t
    rw [hdss] at base
    rw [Nat.cast_sub hc1]
    push_cast
    have hexp : ((s.count : Time) - 1) * t = (s.count : Time) * t - t := by ring
    rw [hexp]
    linarith
  · exact hs.busy_sum
  · intro x hx hk
    exact hs.wake_time x (by rw [hev]; exact List.mem_cons_of_mem _ hx) hk
  · show (rest.filter isWakeB).length ≤ 1
    have hu := hs.wake_uniq
    rw [hev, List.filter_cons_of_neg (by simp [isWakeB])] at hu
    exact hu
  · rcases hs.wake_ex with ⟨x, hx, hw⟩ | ⟨h1, h2⟩
    · rw [hev] at hx
      rcases List.mem_cons.mp hx with h | h
      · rw [h] at hw
        simp [isWakeB] at hw
      · exact Or.inl ⟨x, h, hw⟩
    · exact Or.inr ⟨h1, le_trans h2 hnow_t⟩
  · intro x hx i2 hk
    exact hs.arr_ev x (by rw [hev]; exact List.mem_cons_of_mem _ hx) i2 hk
  · rw [← hfm]
    exact hs.arr_nodup
  · exact hs.arr_keys
  · show s.arrivals.length + (rest.filterMap arrIdx).length = s.genIdx
    rw [← hfm]
    exact hs.arr_len
  · intro dd hd2
    rcases hs.dep_le dd hd2 with h2 | ⟨x, hx1, hxd, hxt⟩
    · exact Or.inl (le_trans h2 hnow_t)
    · rw [hev] at hx1
      rcases List.mem_cons.mp hx1 with h3 | h3
      · left
        rw [h3] at hxt
        exact le_of_eq hxt.symm
      · exact Or.inr ⟨x, h3, hxd, hxt⟩
  · show t ≤ _
    exact hs.time_ub _ hmem
  · intro x hx
    exact hs.time_ub x (by rw [hev]; exact List.mem_cons_of_mem _ hx)
  · intro j2 hj
    obtain ⟨h1, a, h2, h3⟩ := hs.queue_mem j2 hj
    exact ⟨h1, a, h2, le_trans h3 hnow_t⟩
  · exact hs.waits
  · exact hs.grants_arr
  · exact hs.svcs
  · show s.count - 1 + (s.releasedCount + 1) = s.grants.length
    have := hs.cnt_rel
    omega
  · exact hs.fifo
  · exact hs.deq_sorted
  · intro p hp
    exact le_trans (hs.deq_now p hp) hnow_t
  · exact hs.grants_len
  · exact hs.deps_grants

end BankSim

namespace BankSim

theorem inv_done_grant {P : Params} (hP : ParamsOK P) {s : SimState} {t : Time}
    {j jh : ℕ} {rest : List Event} {q2 : List ℕ}
    (hs : Inv P s) (hev : s.events = ⟨t, EventKind.custDone j⟩ :: rest)
    (hq : s.queue = jh :: q2) :
    Inv P (grantTo P t jh ((findArr s.arrivals jh).getD 0)
      { s with
          now := t,
          events := rest,
          count := s.count - 1,
          releasedCount := s.releasedCount + 1,
          queue := q2,
          deq_log := s.deq_log ++ [(jh, t)] }) := by
  obtain ⟨hd, hsv, hln⟩ := hP
  have hmem : (⟨t, EventKind.custDone j⟩ : Event) ∈ s.events := by
    rw [hev]; exact List.mem_cons_self _ _
  have hnow_t : s.now ≤ t := hs.time_ge _ hmem
  have hsorted0 := hs.sorted
  rw [hev, List.sorted_cons] at hsorted0
  have hsorted' := hsorted0.2
  have hrest_ge : ∀ x ∈ rest, t ≤ x.time := hsorted0.1
  obtain ⟨hjn, a0, hfa0, ha0⟩ := hs.queue_mem jh (by rw [hq]; exact List.mem_cons_self _ _)
  have ha : (findArr s.arrivals jh).getD 0 = a0 := by rw [hfa0]; rfl
  have hps : a0 = psum P jh := (hs.arr_keys _ (findArr_some_mem hfa0)).1
  have hceq : s.count = P.capacity := hs.queue_full (by rw [hq]; simp)
  have hdcc : doneCount s = (rest.filter isDoneB).length + 1 := by
    rw [doneCount, hev, List.filter_cons_of_pos rfl, List.length_cons]
  have hdss : doneSum s = t + ((rest.filter isDoneB).map Event.time).sum := by
    rw [doneSum, hev, List.filter_cons_of_pos rfl, List.map_cons, List.sum_cons]
  have hc1 : 1 ≤ s.count := by
    rw [hs.cnt_done, hdcc]
    omega
  have hw0 : 0 ≤ svc P jh := hsv _ (getD_mem (lt_of_lt_of_le hjn hln))
  have hfm : s.events.filterMap arrIdx = rest.filterMap arrIdx := by
    rw [hev, List.filterMap_cons_none (by simp [arrIdx])]
  simp only [grantTo]
  refine { sorted := ?_, now_nonneg := ?_, time_ge := ?_, gen_le := ?_, cnt_le := ?_,
           cnt_done := ?_, queue_full := ?_, busy_bound := ?_, busy_sum := ?_,
           wake_time := ?_, wake_uniq := ?_, wake_ex := ?_, arr_ev := ?_,
           arr_nodup := ?_, arr_keys := ?_, arr_len := ?_, dep_le := ?_,
           now_ub := ?_, time_ub := ?_, queue_mem := ?_, waits := ?_,
           grants_arr := ?_, svcs := ?_, cnt_rel := ?_, fifo := ?_,
           deq_sorted := ?_, deq_now := ?_, grants_len := ?_, deps_grants := ?_ }
  · exact sorted_insertEvent _ hsorted'
  · exact le_trans hs.now_nonneg hnow_t
  · intro x hx
    rcases mem_insertEvent.mp hx with h | h
    · rw [h]
      exact le_add_of_nonneg_right hw0
    · exact hrest_ge x h
  · exact hs.gen_le
  · show s.count - 1 + 1 ≤ P.capacity
    have := hs.cnt_le
    omega
  · show s.count - 1 + 1 =
      ((insertEvent ⟨t + svc P jh, EventKind.custDone jh⟩ rest).filter isDoneB).length
    rw [length_filter_insertEvent, List.filter_cons_of_pos rfl, List.length_cons]
    have := hs.cnt_done
    rw [hdcc] at this
    omega
  · intro _
    show s.count - 1 + 1 = P.capacity
    omega
  · show s.busy_time + svc P jh + ((s.count - 1 + 1 : ℕ) : Time) * t ≤ (P.capacity : Time) * t +
      doneSum { s with
        now := t,
        events := insertEvent ⟨t + svc P jh, EventKind.custDone jh⟩ rest,
        count := s.count - 1 + 1,
        queue := q2,
        wait_times := s.wait_times ++ [t - (findArr s.arrivals jh).getD 0],
        service_times := s.service_times ++ [svc P jh],
        busy_time := s.busy_time + svc P jh,
        grants := s.grants ++ [⟨jh, t⟩],
        releasedCount := s.releasedCount + 1,
        deq_log := s.deq_log ++ [(jh, t)],
        departures := s.departures ++ [t + svc P jh] }
    have hds1 : doneSum { s with
        now := t,
        events := insertEvent ⟨t + svc P jh, EventKind.custDone jh⟩ rest,
        count := s.count - 1 + 1,
        queue := q2,
        wait_times := s.wait_times ++ [t - (findArr s.arrivals jh).getD 0],
        service_times := s.service_times ++ [svc P jh],
        busy_time := s.busy_time + svc P jh,
        grants := s.grants ++ [⟨jh, t⟩],
        releasedCount := s.releasedCount + 1,
        deq_log := s.deq_log ++ [(jh, t)],
        departures := s.departures ++ [t + svc P jh] } =
        (t + svc P jh) + ((rest.filter isDoneB).map Event.time).sum := by
      show (((insertEvent ⟨t + svc P jh, EventKind.custDone jh⟩ rest).filter
        isDoneB).map Event.time).sum = _
      rw [sum_filter_insertEvent, List.filter_cons_of_pos rfl, List.map_cons, List.sum_cons]
    rw [hds1]
    have hcast : s.count - 1 + 1 = s.count := by omega
    rw [hcast]
    have base := adv_bound hs.busy_bound (Nat.cast_le.mpr hs.cnt_le) hnow_t
    rw [hdss] at base
    linarith
  · show s.busy_time + svc P jh = (s.service_times ++ [svc P jh]).sum
    rw [List.sum_append, hs.busy_sum]
    simp
  · intro x hx hk
    rcases mem_insertEvent.mp hx with h | h
    · rw [h] at hk
      simp at hk
    · exact hs.wake_time x (by rw [hev]; exact List.mem_cons_of_mem _ h) hk
  · show ((insertEvent ⟨t + svc P jh, EventKind.custDone jh⟩ rest).filter isWakeB).length ≤ 1
    rw [length_filter_insertEvent, List.filter_cons_of_neg (by simp [isWakeB])]
    have hu := hs.wake_uniq
    rw [hev, List.filter_cons_of_neg (by simp [isWakeB])] at hu
    exact hu
  · rcases hs.wake_ex with ⟨x, hx, hw⟩ | ⟨h1, h2⟩
    · rw [hev] at hx
      rcases List.mem_cons.mp hx with h | h
      · rw [h] at hw
        simp [isWakeB] at hw
      · exact Or.inl ⟨x, mem_insertEvent.mpr (Or.inr h), hw⟩
    · exact Or.inr ⟨h1, le_trans h2 hnow_t⟩
  · intro x hx i2 hk
    rcases mem_insertEvent.mp hx with h | h
    · rw [h] at hk
      simp at hk
    · exact hs.arr_ev x (by rw [hev]; exact List.mem_cons_of_mem _ h) i2 hk
  · rw [(filterMap_insertEvent_perm _ _).nodup_iff,
      List.filterMap_cons_none (by simp [arrIdx]), ← hfm]
    exact hs.arr_nodup
  · exact hs.arr_keys
  · show s.arrivals.length +
      ((insertEvent ⟨t + svc P jh, EventKind.custDone jh⟩ rest).filterMap arrIdx).length
        = s.genIdx
    rw [(filterMap_insertEvent_perm _ _).length_eq,
      List.filterMap_cons_none (by simp [arrIdx]), ← hfm]
    exact hs.arr_len
  · intro dd hd2
    rcases List.mem_append.mp hd2 with h | h
    · rcases hs.dep_le dd h with h2 | ⟨x, hx1, hxd, hxt⟩
      · exact Or.inl (le_trans h2 hnow_t)
      · rw [hev] at hx1
        rcases List.mem_cons.mp hx1 with h3 | h3
        · left
          rw [h3] at hxt
          exact le_of_eq hxt.symm
        · exact Or.inr ⟨x, mem_insertEvent.mpr (Or.inr h3), hxd, hxt⟩
    · rw [List.mem_singleton] at h
      exact Or.inr ⟨⟨t + svc P jh, EventKind.custDone jh⟩,
        mem_insertEvent.mpr (Or.inl rfl), rfl, h.symm⟩
  · show t ≤ _
    refine le_trans (hs.time_ub _ hmem) ?_
    refine max_le_max (le_refl _) ?_
    rw [maxD_append]
    exact le_max_left _ _
  · intro x hx
    rcases mem_insertEvent.mp hx with h | h
    · rw [h]
      show t + svc P jh ≤ _
      refine le_trans ?_ (le_max_right _ _)
      rw [maxD_append]
      exact le_max_right _ _
    · refine le_trans (hs.time_ub x (by rw [hev]; exact List.mem_cons_of_mem _ h)) ?_
      refine max_le_max (le_refl _) ?_
      rw [maxD_append]
      exact le_max_left _ _
  · intro j2 hj
    have hj2 : j2 ∈ s.queue := by
      rw [hq]
      exact List.mem_cons_of_mem _ hj
    obtain ⟨h1, a, h2, h3⟩ := hs.queue_mem j2 hj2
    exact ⟨h1, a, h2, le_trans h3 hnow_t⟩
  · show s.wait_times ++ [t - (findArr s.arrivals jh).getD 0]
      = (s.grants ++ [(⟨jh, t⟩ : Grant)]).map _
    rw [List.map_append, ← hs.waits, ha, hps]
    rfl
  · intro g hg
    rcases List.mem_append.mp hg with h | h
    · exact hs.grants_arr g h
    · rw [List.mem_singleton] at h
      rw [h]
      refine ⟨?_, hjn, ?_⟩
      · rw [← hps]
        exact hfa0
      · rw [← hps]
        exact le_trans ha0 hnow_t
  · show s.service_times ++ [svc P jh] = (s.grants ++ [(⟨jh, t⟩ : Grant)]).map _
    rw [List.map_append, ← hs.svcs]
    rfl
  · show s.count - 1 + 1 + (s.releasedCount + 1) = (s.grants ++ [(⟨jh, t⟩ : Grant)]).length
    rw [List.length_append]
    have := hs.cnt_rel
    simp only [List.length_singleton]
    omega
  · show s.enq_log = (s.deq_log ++ [(jh, t)]).map Prod.fst ++ q2
    rw [List.map_append, hs.fifo, hq, List.append_assoc]
    rfl
  · show List.Sorted (· ≤ ·) ((s.deq_log ++ [(jh, t)]).map Prod.snd)
    rw [List.map_append, List.Sorted, List.pairwise_append]
    refine ⟨hs.deq_sorted, by simp, ?_⟩
    intro x hx y hy
    rw [List.mem_map] at hx
    obtain ⟨p, hp, hpx⟩ := hx
    simp only [List.map_cons, List.map_nil, List.mem_singleton] at hy
    rw [hy, ← hpx]
    exact le_trans (hs.deq_now p hp) hnow_t
  · intro p hp
    rcases List.mem_append.mp hp with h | h
    · exact le_trans (hs.deq_now p h) hnow_t
    · rw [List.mem_singleton] at h
      rw [h]
  · show (s.grants ++ [(⟨jh, t⟩ : Grant)]).length + q2.length = s.arrivals.length
    rw [List.length_append]
    have := hs.grants_len
    rw [hq, List.length_cons] at this
    simp only [List.length_singleton]
    omega
  · show s.departures ++ [t + svc P jh] = (s.grants ++ [(⟨jh, t⟩ : Grant)]).map _
    rw [List.map_append, ← hs.deps_grants]
    rfl

end BankSim

namespace BankSim

theorem inv_step {P : Params} (hP : ParamsOK P) {s s2 : SimState}
    (hs : Inv P s) (h : step P s = some s2) : Inv P s2 := by
  cases hev : s.events with
  | nil =>
    rw [step, hev] at h
    exact absurd h (by simp)
  | cons e rest =>
    obtain ⟨t, k⟩ := e
    cases k with
    | genWake =>
      by_cases hlt : s.genIdx < P.delays.length
      · rw [step, hev] at h
        simp only [hlt, if_true, Option.some.injEq] at h
        rw [← h]
        exact inv_wake_pos ⟨hP.1, hP.2.1, hP.2.2⟩ hs hev hlt
      · rw [step, hev] at h
        simp only [hlt, if_false, Option.some.injEq] at h
        rw [← h]
        exact inv_wake_neg ⟨hP.1, hP.2.1, hP.2.2⟩ hs hev hlt
    | custArrive i =>
      by_cases hcnt : s.count < P.capacity
      · rw [step, hev] at h
        simp only [hcnt, if_true, Option.some.injEq] at h
        rw [← h]
        exact inv_arrive_grant ⟨hP.1, hP.2.1, hP.2.2⟩ hs hev hcnt
      · rw [step, hev] at h
        simp only [hcnt, if_false, Option.some.injEq] at h
        rw [← h]
        exact inv_arrive_queue ⟨hP.1, hP.2.1, hP.2.2⟩ hs hev hcnt
    | custDone j =>
      cases hq : s.queue with
      | nil =>
        rw [step, hev] at h
        simp only [hq, Option.some.injEq] at h
        rw [← h, ← hq]
        exact inv_done_empty ⟨hP.1, hP.2.1, hP.2.2⟩ hs hev hq
      | cons jh q2 =>
        rw [step, hev] at h
        simp only [hq, Option.some.injEq] at h
        rw [← h]
        exact inv_done_grant ⟨hP.1, hP.2.1, hP.2.2⟩ hs hev hq

theorem inv_run (P : Params) (hP : ParamsOK P) : ∀ k, Inv P (run P k) := by
  intro k
  induction k with
  | zero => exact inv_init P
  | succ k ih =>
    rw [run]
    cases hst : step P (run P k) with
    | none => exact ih
    | some s2 => exact inv_step hP ih hst

theorem wsum_insertEvent (e : Event) (l : List Event) :
    wsum (insertEvent e l) = weight e.kind + wsum l := by
  unfold wsum
  rw [((insertEvent_perm e l).map _).sum_eq, List.map_cons, List.sum_cons]

theorem wsum_cons (e : Event) (l : List Event) : wsum (e :: l) = weight e.kind + wsum l := by
  simp [wsum]

theorem one_le_weight (k : EventKind) : 1 ≤ weight k := by
  cases k <;> simp [weight]

theorem wsum_eq_zero {l : List Event} (h : wsum l = 0) : l = [] := by
  cases l with
  | nil => rfl
  | cons e tl =>
    exfalso
    rw [wsum, List.map_cons, List.sum_cons] at h
    have := one_le_weight e.kind
    omega

theorem phi_step {P : Params} {s s2 : SimState}
    (h : step P s = some s2) : phi P s2 + 1 = phi P s := by
  cases hev : s.events with
  | nil =>
    rw [step, hev] at h
    exact absurd h (by simp)
  | cons e rest =>
    obtain ⟨t, k⟩ := e
    cases k with
    | genWake =>
      by_cases hlt : s.genIdx < P.delays.length
      · rw [step, hev] at h
        simp only [hlt, if_true, Option.some.injEq] at h
        rw [← h]
        simp only [phi, hev, wsum_insertEvent, wsum_cons, weight]
        omega
      · rw [step, hev] at h
        simp only [hlt, if_false, Option.some.injEq] at h
        rw [← h]
        simp only [phi, hev, wsum_cons, weight]
        omega
    | custArrive i =>
      by_cases hcnt : s.count < P.capacity
      · rw [step, hev] at h
        simp only [hcnt, if_true, Option.some.injEq] at h
        rw [← h]
        simp only [phi, grantTo, hev, wsum_insertEvent, wsum_cons, weight]
        omega
      · rw [step, hev] at h
        simp only [hcnt, if_false, Option.some.injEq] at h
        rw [← h]
        simp only [phi, hev, wsum_cons, weight, List.length_append, List.length_singleton]
        omega
    | custDone j =>
      cases hq : s.queue with
      | nil =>
        rw [step, hev] at h
        simp only [hq, Option.some.injEq] at h
        rw [← h]
        simp only [phi, hev, hq, wsum_cons, weight, List.length_nil]
        omega
      | cons jh q2 =>
        rw [step, hev] at h
        simp only [hq, Option.some.injEq] at h
        rw [← h]
        simp only [phi, grantTo, hev, hq, wsum_insertEvent, wsum_cons, weight,
          List.length_cons]
        omega

theorem step_none_iff {P : Params} {s : SimState} : step P s = none ↔ s.events = [] := by
  cases hev : s.events with
  | nil => simp [step, hev]
  | cons e rest =>
    rw [step, hev]
    obtain ⟨t, k⟩ := e
    cases k with
    | genWake => by_cases hlt : s.genIdx < P.delays.length <;> simp [hlt]
    | custArrive i => by_cases hcnt : s.count < P.capacity <;> simp [hcnt]
    | custDone j => cases hq : s.queue <;> simp

theorem phi_init_eq (P : Params) : phi P init = fuel P := by
  simp [phi, fuel, init, wsum, weight]

theorem run_events_empty_succ {P : Params} {k : ℕ} (h : (run P k).events = []) :
    run P (k + 1) = run P k := by
  rw [run, step_none_iff.mpr h]

theorem phi_run (P : Params) :
    ∀ k, (run P k).events = [] ∨ phi P (run P k) + k ≤ phi P init := by
  intro k
  induction k with
  | zero => exact Or.inr (by simp [run])
  | succ k ih =>
    rcases ih with ih | ih
    · left
      rw [run_events_empty_succ ih]
      exact ih
    · cases hst : step P (run P k) with
      | none =>
        left
        simp only [run, hst]
        exact step_none_iff.mp hst
      | some s2 =>
        right
        have := phi_step hst
        simp only [run, hst]
        omega

theorem final_events_empty (P : Params) : (final P).events = [] := by
  rcases phi_run P (fuel P) with h | h
  · exact h
  · rw [phi_init_eq] at h
    have hz : phi P (run P (fuel P)) = 0 := by omega
    have hw : wsum (run P (fuel P)).events = 0 := by
      rw [phi] at hz
      omega
    exact wsum_eq_zero hw

end BankSim

namespace BankSim

theorem final_gen_done (P : Params) (hP : ParamsOK P) :
    (final P).genIdx = P.delays.length ∧ P.delays.sum ≤ (final P).now := by
  have hI : Inv P (final P) := inv_run P hP (fuel P)
  have hE : (final P).events = [] := final_events_empty P
  rcases hI.wake_ex with ⟨x, hx, _⟩ | h
  · rw [hE] at hx
    exact absurd hx (List.not_mem_nil x)
  · exact h

theorem final_count (P : Params) (hP : ParamsOK P) : (final P).count = 0 := by
  have hI : Inv P (final P) := inv_run P hP (fuel P)
  have hE : (final P).events = [] := final_events_empty P
  have h := hI.cnt_done
  rw [doneCount, hE] at h
  simpa using h

theorem final_queue (P : Params) (hP : ParamsOK P) (hc : 1 ≤ P.capacity) :
    (final P).queue = [] := by
  by_contra hne
  have hI : Inv P (final P) := inv_run P hP (fuel P)
  have h1 := hI.queue_full hne
  have h2 := final_count P hP
  omega

theorem final_now (P : Params) (hP : ParamsOK P) :
    (final P).now = max P.delays.sum (maxD (final P).departures) := by
  have hI : Inv P (final P) := inv_run P hP (fuel P)
  have hE : (final P).events = [] := final_events_empty P
  refine le_antisymm hI.now_ub (max_le (final_gen_done P hP).2 ?_)
  apply maxD_le hI.now_nonneg
  intro d hd2
  rcases hI.dep_le d hd2 with h | ⟨x, hx, _⟩
  · exact h
  · rw [hE] at hx
    exact absurd hx (List.not_mem_nil x)

theorem final_busy_le (P : Params) (hP : ParamsOK P) :
    (final P).busy_time ≤ (P.capacity : Time) * (final P).now := by
  have hI : Inv P (final P) := inv_run P hP (fuel P)
  have hE : (final P).events = [] := final_events_empty P
  have hb := hI.busy_bound
  have hds : doneSum (final P) = 0 := by
    rw [doneSum, hE]
    rfl
  have hc0 : (final P).count = 0 := final_count P hP
  rw [hds, hc0] at hb
  simpa using hb

theorem final_busy_nonneg (P : Params) (hP : ParamsOK P) : 0 ≤ (final P).busy_time := by
  have hI : Inv P (final P) := inv_run P hP (fuel P)
  rw [hI.busy_sum, hI.svcs]
  apply List.sum_nonneg
  intro x hx
  rw [List.mem_map] at hx
  obtain ⟨g, hg, hgx⟩ := hx
  rw [← hgx]
  exact hP.2.1 _ (getD_mem (lt_of_lt_of_le (hI.grants_arr g hg).2.1 hP.2.2))

theorem final_arr_len (P : Params) (hP : ParamsOK P) :
    (final P).arrivals.length = P.delays.length := by
  have hI : Inv P (final P) := inv_run P hP (fuel P)
  have hE : (final P).events = [] := final_events_empty P
  have h := hI.arr_len
  rw [hE] at h
  simp only [List.filterMap_nil, List.length_nil, Nat.add_zero] at h
  rw [h]
  exact (final_gen_done P hP).1

theorem final_grants_len (P : Params) (hP : ParamsOK P) (hc : 1 ≤ P.capacity) :
    (final P).grants.length = P.delays.length := by
  have hI : Inv P (final P) := inv_run P hP (fuel P)
  have h := hI.grants_len
  rw [final_queue P hP hc] at h
  simp only [List.length_nil, Nat.add_zero] at h
  rw [h]
  exact final_arr_len P hP

theorem final_wait_len (P : Params) (hP : ParamsOK P) (hc : 1 ≤ P.capacity) :
    (final P).wait_times.length = P.delays.length := by
  have hI : Inv P (final P) := inv_run P hP (fuel P)
  rw [hI.waits, List.length_map]
  exact final_grants_len P hP hc

theorem final_service_len (P : Params) (hP : ParamsOK P) (hc : 1 ≤ P.capacity) :
    (final P).service_times.length = P.delays.length := by
  have hI : Inv P (final P) := inv_run P hP (fuel P)
  rw [hI.svcs, List.length_map]
  exact final_grants_len P hP hc

end BankSim

namespace BankSim

/-- C1: for every entity process, the recorded wait equals the grant time
minus the arrival time exactly — at every observable point of any run, the
wait-times sequence is, grant by grant, the grant instant minus the arrival
time recorded for the granted customer. -/
theorem C1_wait_eq_grant_sub_arrival (P : Params) (hP : ParamsOK P) (k : ℕ) :
    (run P k).wait_times =
      (run P k).grants.map
        (fun g => g.time - ((findArr (run P k).arrivals g.cust).getD 0)) := by
  have hI := inv_run P hP k
  rw [hI.waits]
  apply map_congr_mem
  intro g hg
  rw [(hI.grants_arr g hg).1]
  rfl

/-- Witness for C1 on a concrete run (capacity 1, delays 1,1,1, services
3,3,3, run to completion). -/
theorem C1_witness :
    (run ⟨1, [1, 1, 1], [3, 3, 3]⟩ 10).wait_times =
      (run ⟨1, [1, 1, 1], [3, 3, 3]⟩ 10).grants.map
        (fun g => g.time -
          ((findArr (run ⟨1, [1, 1, 1], [3, 3, 3]⟩ 10).arrivals g.cust).getD 0)) :=
  C1_wait_eq_grant_sub_arrival ⟨1, [1, 1, 1], [3, 3, 3]⟩ (by with_unfolding_all decide) 10

/-- C2: at every observable instant of a run, the number of processes that
have been granted a unit and have not yet released it — grants so far minus
releases so far, which coincides with the resource's `count` — is at least
0 (the subtraction never truncates) and at most the configured capacity. -/
theorem C2_capacity_invariant (P : Params) (hP : ParamsOK P) (k : ℕ) :
    (run P k).grants.length - (run P k).releasedCount = (run P k).count ∧
      (run P k).releasedCount ≤ (run P k).grants.length ∧
      (run P k).count ≤ P.capacity := by
  have hI := inv_run P hP k
  have h := hI.cnt_rel
  exact ⟨by omega, by omega, hI.cnt_le⟩

/-- Witness for C2 on a concrete run mid-flight. -/
theorem C2_witness :
    (run ⟨1, [1, 1, 1], [3, 3, 3]⟩ 5).grants.length -
        (run ⟨1, [1, 1, 1], [3, 3, 3]⟩ 5).releasedCount =
        (run ⟨1, [1, 1, 1], [3, 3, 3]⟩ 5).count ∧
      (run ⟨1, [1, 1, 1], [3, 3, 3]⟩ 5).releasedCount ≤
        (run ⟨1, [1, 1, 1], [3, 3, 3]⟩ 5).grants.length ∧
      (run ⟨1, [1, 1, 1], [3, 3, 3]⟩ 5).count ≤ (1 : ℕ) :=
  C2_capacity_invariant ⟨1, [1, 1, 1], [3, 3, 3]⟩ (by with_unfolding_all decide) 5

/-- C3: strict FIFO of the resource — at every observable instant the
enqueue log equals the dequeue log followed by the current queue (so waiters
are granted in exactly the order they enqueued, with no reordering), and the
grant instants along the dequeue log are nondecreasing (a request enqueued
earlier is granted no later than one enqueued later). -/
theorem C3_fifo (P : Params) (hP : ParamsOK P) (k : ℕ) :
    (run P k).enq_log = (run P k).deq_log.map Prod.fst ++ (run P k).queue ∧
      List.Sorted (· ≤ ·) ((run P k).deq_log.map Prod.snd) :=
  ⟨(inv_run P hP k).fifo, (inv_run P hP k).deq_sorted⟩

/-- Witness for C3 on a concrete completed run. -/
theorem C3_witness :
    (run ⟨1, [1, 1, 1], [3, 3, 3]⟩ 10).enq_log =
        (run ⟨1, [1, 1, 1], [3, 3, 3]⟩ 10).deq_log.map Prod.fst ++
          (run ⟨1, [1, 1, 1], [3, 3, 3]⟩ 10).queue ∧
      List.Sorted (· ≤ ·) ((run ⟨1, [1, 1, 1], [3, 3, 3]⟩ 10).deq_log.map Prod.snd) :=
  C3_fifo ⟨1, [1, 1, 1], [3, 3, 3]⟩ (by with_unfolding_all decide) 10

/-- C4: determinism — the run is a pure function of the configuration and of
the seed-determined draw sequences; two runs from equal inputs produce
identical wait-time sequences and identical total elapsed time (the
embedding's scheduler resolves same-instant events deterministically by
scheduling order, as SimPy's `(time, sequence)` key does). -/
theorem C4_determinism (P Q : Params) (h : P = Q) :
    (run_simulation P).wait_times = (run_simulation Q).wait_times ∧
      (run_simulation P).total_time = (run_simulation Q).total_time := by
  subst h
  exact ⟨rfl, rfl⟩

/-- Witness for C4 at a concrete configuration. -/
theorem C4_witness :
    (run_simulation ⟨2, [1, 1], [5, 5]⟩).wait_times =
        (run_simulation ⟨2, [1, 1], [5, 5]⟩).wait_times ∧
      (run_simulation ⟨2, [1, 1], [5, 5]⟩).total_time =
        (run_simulation ⟨2, [1, 1], [5, 5]⟩).total_time :=
  C4_determinism ⟨2, [1, 1], [5, 5]⟩ ⟨2, [1, 1], [5, 5]⟩ rfl

/-- C5: for any capacity ≥ 1, the utilization reported at the end of the
run, `busy_time / (total_time × capacity) × 100`, lies between 0 and 100. -/
theorem C5_utilization_bound (P : Params) (hP : ParamsOK P) (hc : 1 ≤ P.capacity) :
    0 ≤ utilization P ∧ utilization P ≤ 100 := by
  have hb0 := final_busy_nonneg P hP
  have hb1 := final_busy_le P hP
  have hn0 : 0 ≤ (final P).now := (inv_run P hP (fuel P) : Inv P (final P)).now_nonneg
  have hcap : (0 : Time) < (P.capacity : Time) := by
    exact_mod_cast Nat.lt_of_lt_of_le Nat.zero_lt_one hc
  unfold utilization
  rcases eq_or_lt_of_le hn0 with h0 | h0
  · rw [← h0, zero_mul, div_zero, zero_mul]
    norm_num
  · have hden : (0 : Time) < (final P).now * (P.capacity : Time) := mul_pos h0 hcap
    constructor
    · apply mul_nonneg _ (by norm_num)
      exact div_nonneg hb0 (le_of_lt hden)
    · have hdiv : (final P).busy_time / ((final P).now * (P.capacity : Time)) ≤ 1 := by
        rw [div_le_one hden, mul_comm]
        exact hb1
      linarith

/-- Witness for C5 at a concrete configuration. -/
theorem C5_witness :
    0 ≤ utilization ⟨1, [1, 1, 1], [3, 3, 3]⟩ ∧
      utilization ⟨1, [1, 1, 1], [3, 3, 3]⟩ ≤ 100 :=
  C5_utilization_bound ⟨1, [1, 1, 1], [3, 3, 3]⟩ (by with_unfolding_all decide) (by with_unfolding_all decide)

/-- C6 counterexample: the source's generator spawns each customer first and
waits the drawn delay afterwards, so with a single delay draw of 5 the first
customer is recorded as arriving at time 0; under the claim's
draw-delay-then-spawn reading it would arrive at `specArrivalTime _ 0 = 5`.
The first spawn is preceded by no delay at all. -/
theorem C6_counterexample :
    findArr (final ⟨1, [5], [3]⟩).arrivals 0 = some 0 ∧
      specArrivalTime ⟨1, [5], [3]⟩ 0 = 5 ∧ (0 : Time) ≠ 5 := by
  refine ⟨by with_unfolding_all decide, by with_unfolding_all decide, by norm_num⟩

/-- C6 amended: the generator loop spawns customer `i` first and only then
draws and suspends for the i-th delay; hence every recorded arrival time is
the sum of the delays drawn strictly before that spawn,
`arrival i = d_0 + … + d_(i-1)` — in particular customer 0 arrives at time
0 with no preceding delay, and the last draw is awaited after the final
spawn. -/
theorem C6_amended (P : Params) (hP : ParamsOK P) (k : ℕ) :
    ∀ p ∈ (run P k).arrivals, p.2 = psum P p.1 := by
  intro p hp
  exact ((inv_run P hP k).arr_keys p hp).1

/-- Witness for the amended C6: in the one-customer run, the recorded
arrival time of customer 0 equals the (empty) sum of the delays drawn
before its spawn. -/
theorem C6_witness : (0 : Time) = psum ⟨1, [5], [3]⟩ 0 :=
  C6_amended ⟨1, [5], [3]⟩ (by with_unfolding_all decide) 4 ((0 : ℕ), (0 : Time))
    (by with_unfolding_all decide)

/-- C7 counterexample: the configuration with service_min = 7 > 3 =
service_max is invalid per the spec's `InvalidConfiguration` criterion, yet
the source performs no validation at all: the run fed by that
configuration's draws (capacity 2, two customers; `random.uniform(7, 3)`
returns values in [3, 7] without error) executes every event to completion
and records both waits, instead of being rejected before any event. -/
theorem C7_counterexample :
    ¬ validConfig ⟨2, 2, 5, 7, 3⟩ ∧
      (final ⟨2, [1, 1], [5, 5]⟩).events = [] ∧
      (final ⟨2, [1, 1], [5, 5]⟩).wait_times = [0, 0] := by
  refine ⟨by with_unfolding_all decide, by with_unfolding_all decide,
    by with_unfolding_all decide⟩

/-- C7 amended: `run_simulation` has no configuration check and no
`InvalidConfiguration` error path — it is a total function from parameters
to a summary record; on the invalid (min > max) configuration's draws it
completes normally and produces the full summary. -/
theorem C7_amended :
    run_simulation ⟨2, [1, 1], [5, 5]⟩ =
      { wait_times := [0, 0], service_times := [5, 5], avg_wait := 0,
        avg_service := 5, total_time := 6, utilization := 250 / 3 } := by
  with_unfolding_all decide

/-- C8 counterexample: the deterministic scenario (capacity 1, arrivals at
0, 1, 2 via delays 1, 1, 1, service duration 3 each) does produce waits
0, 2, 4, but the total elapsed time is 9 — the third customer is granted at
time 6 and departs at 9 — not 8 as the claim states. -/
theorem C8_counterexample :
    (final ⟨1, [1, 1, 1], [3, 3, 3]⟩).wait_times = [0, 2, 4] ∧
      (final ⟨1, [1, 1, 1], [3, 3, 3]⟩).now = 9 ∧
      (final ⟨1, [1, 1, 1], [3, 3, 3]⟩).now ≠ 8 := by
  with_unfolding_all decide

/-- C8 amended: in that scenario the recorded waits are 0, 2 and 4, the
total elapsed time is 9, and the reported utilization is
(3+3+3)/(9·1)·100 = 100. -/
theorem C8_amended :
    (final ⟨1, [1, 1, 1], [3, 3, 3]⟩).wait_times = [0, 2, 4] ∧
      (final ⟨1, [1, 1, 1], [3, 3, 3]⟩).now = 9 ∧
      utilization ⟨1, [1, 1, 1], [3, 3, 3]⟩ = 100 := by
  with_unfolding_all decide

/-- C9: when the run returns, the total elapsed time equals the maximum of
the generator's own finish time — the sum of all drawn inter-arrival delays,
the last of which is still awaited after the final spawn — and the latest
customer departure time, each departure being its grant time plus its
service duration; and (third conjunct, concrete run with delays 5, 5 and
services 1, 1) the elapsed time can strictly exceed the completion time of
the last service. -/
theorem C9_total_time (P : Params) (hP : ParamsOK P) :
    (final P).now = max P.delays.sum (maxD (final P).departures) ∧
      (final P).departures = (final P).grants.map (fun g => g.time + svc P g.cust) ∧
      maxD (final ⟨1, [5, 5], [1, 1]⟩).departures < (final ⟨1, [5, 5], [1, 1]⟩).now := by
  exact ⟨final_now P hP,
    (inv_run P hP (fuel P) : Inv P (final P)).deps_grants, by with_unfolding_all decide⟩

/-- Witness for C9 at a concrete configuration. -/
theorem C9_witness :
    (final ⟨1, [5, 5], [1, 1]⟩).now =
        max (⟨1, [5, 5], [1, 1]⟩ : Params).delays.sum
          (maxD (final ⟨1, [5, 5], [1, 1]⟩).departures) ∧
      (final ⟨1, [5, 5], [1, 1]⟩).departures =
        (final ⟨1, [5, 5], [1, 1]⟩).grants.map
          (fun g => g.time + svc ⟨1, [5, 5], [1, 1]⟩ g.cust) ∧
      maxD (final ⟨1, [5, 5], [1, 1]⟩).departures < (final ⟨1, [5, 5], [1, 1]⟩).now :=
  C9_total_time ⟨1, [5, 5], [1, 1]⟩ (by with_unfolding_all decide)

/-- C10: at every step of a run the busy-time accumulator equals the sum of
the recorded service durations; with draws from uniform(3, 7) every recorded
service duration lies in [3, 7]; every recorded wait is nonnegative; and
when the run ends the wait-times and service-times lists each hold exactly
one entry per customer. -/
theorem C10_statistics (P : Params) (hP : ParamsOK P) (hc : 1 ≤ P.capacity)
    (hr : ∀ x ∈ P.services, 3 ≤ x ∧ x ≤ 7) (k : ℕ) :
    (run P k).busy_time = (run P k).service_times.sum ∧
      (∀ x ∈ (run P k).service_times, 3 ≤ x ∧ x ≤ 7) ∧
      (∀ w ∈ (run P k).wait_times, 0 ≤ w) ∧
      (final P).wait_times.length = P.delays.length ∧
      (final P).service_times.length = P.delays.length := by
  have hI := inv_run P hP k
  refine ⟨hI.busy_sum, ?_, ?_, final_wait_len P hP hc, final_service_len P hP hc⟩
  · intro x hx
    rw [hI.svcs, List.mem_map] at hx
    obtain ⟨g, hg, hgx⟩ := hx
    rw [← hgx]
    exact hr _ (getD_mem (lt_of_lt_of_le (hI.grants_arr g hg).2.1 hP.2.2))
  · intro w hw
    rw [hI.waits, List.mem_map] at hw
    obtain ⟨g, hg, hgw⟩ := hw
    rw [← hgw]
    have := (hI.grants_arr g hg).2.2
    linarith

/-- Witness for C10 on a concrete run. -/
theorem C10_witness :
    (run ⟨1, [1, 1, 1], [3, 3, 3]⟩ 10).busy_time =
        (run ⟨1, [1, 1, 1], [3, 3, 3]⟩ 10).service_times.sum ∧
      (∀ x ∈ (run ⟨1, [1, 1, 1], [3, 3, 3]⟩ 10).service_times, 3 ≤ x ∧ x ≤ 7) ∧
      (∀ w ∈ (run ⟨1, [1, 1, 1], [3, 3, 3]⟩ 10).wait_times, 0 ≤ w) ∧
      (final ⟨1, [1, 1, 1], [3, 3, 3]⟩).wait_times.length = 3 ∧
      (final ⟨1, [1, 1, 1], [3, 3, 3]⟩).service_times.length = 3 :=
  C10_statistics ⟨1, [1, 1, 1], [3, 3, 3]⟩ (by with_unfolding_all decide) (by with_unfolding_all decide) (by with_unfolding_all decide) 10

end BankSim
